import Mathlib

/- Shallow embedding of the `rust-velocystream` wire-framing layer
   (`src/lib.rs`).  Bytes are modelled as `Nat` values below 256;
   Rust `u32`/`u64` arithmetic is `Nat` with an explicit `% 2^32` /
   `% 2^64` wherever the source casts or can wrap.  A Rust panic
   (slice bound violation or a failing `assert!`) is modelled as
   `Option.none`. -/

set_option maxHeartbeats 1000000
set_option maxRecDepth 4000

/-- One wire chunk: struct `Chunk` of `src/lib.rs`, fields `length`,
`chunk_x`, `message_id`, `message_length`, `data`. -/
structure Chunk where
  length : Nat
  chunk_x : Nat
  message_id : Nat
  message_length : Nat
  data : List Nat
deriving DecidableEq

/-- `Chunk::encode_chunk_x(chunk_index, num_chunks)` of the source: value `3`
for a single-chunk message, `(num_chunks << 1) + 1` for the first chunk of a
multi-chunk message, `chunk_index << 1` for a continuation chunk.  The shift
is `u32` arithmetic, hence the `% 2^32`. -/
def Chunk.encode_chunk_x (chunk_index num_chunks : Nat) : Nat :=
  if num_chunks = 1 then 3
  else if chunk_index = 0 then (num_chunks * 2) % 2^32 + 1
  else (chunk_index * 2) % 2^32

/-- `Chunk::from_data` of the source: builds a single-chunk message around a
payload, with the hard-coded `message_id = 11`, `length = (24 + data.len()) as
u32` and `message_length = data.len() as u64`. -/
def Chunk.from_data (data : List Nat) : Chunk :=
  { length := (24 + data.length) % 2^32
    chunk_x := Chunk.encode_chunk_x 0 1
    message_id := 11
    message_length := data.length % 2^64
    data := data }

/-- Little-endian byte string of a machine integer, `w` bytes wide: models the
`u32::to_le_bytes` / `u64::to_le_bytes` primitives used by `Chunk::to_bytes`. -/
def leBytes : Nat → Nat → List Nat
  | 0, _ => []
  | w + 1, v => v % 256 :: leBytes w (v / 256)

/-- Little-endian value of a byte string: models the `u32::from_le_bytes` /
`u64::from_le_bytes` primitives used by `Chunk::from_bytes`. -/
def leValue : List Nat → Nat
  | [] => 0
  | b :: rest => b + 256 * leValue rest

/-- `Chunk::to_bytes` of the source: the four header integers, little-endian,
followed by the payload. -/
def Chunk.to_bytes (c : Chunk) : List Nat :=
  leBytes 4 c.length ++ leBytes 4 c.chunk_x ++ leBytes 8 c.message_id ++
    leBytes 8 c.message_length ++ c.data

/-- `Chunk::from_bytes` of the source: reads `length` from bytes 0..4,
`chunk_x` from 4..8, `message_id` from 8..16, `message_length` from 16..24,
and takes the rest as the payload.  The source performs no validation at all;
on a buffer shorter than 24 bytes `copy_from_slice` panics, which is modelled
as `none`. -/
def Chunk.from_bytes (data : List Nat) : Option Chunk :=
  if data.length < 24 then none
  else some
    { length := leValue (data.take 4)
      chunk_x := leValue ((data.drop 4).take 4)
      message_id := leValue ((data.drop 8).take 8)
      message_length := leValue ((data.drop 16).take 8)
      data := data.drop 24 }

/-- `Chunk::is_first_chunk` of the source: low bit of `chunk_x`. -/
def Chunk.is_first_chunk (c : Chunk) : Bool :=
  c.chunk_x % 2 == 1

/-- `Chunk::get_chunk` of the source: `assert!(self.is_first_chunk())` then
`chunk_x >> 1`.  The failing assert (a panic) is modelled as `none`. -/
def Chunk.get_chunk (c : Chunk) : Option Nat :=
  if c.is_first_chunk then some (c.chunk_x / 2) else none

/-- `Chunk::get_chunk_number` of the source: `1` for a first chunk, otherwise
the result of `get_chunk` (which asserts the opposite). -/
def Chunk.get_chunk_number (c : Chunk) : Option Nat :=
  if c.is_first_chunk then some 1 else c.get_chunk

/-- enum `RequestType` of the source (`Head = 4` and `Options = 6` unused). -/
inductive RequestType
  | Delete
  | Get
  | Post
  | Put
  | Patch
deriving DecidableEq

/-- The discriminant of `RequestType`, as read by the `as i32` cast. -/
def RequestType.code : RequestType → Int
  | .Delete => 0
  | .Get => 1
  | .Post => 2
  | .Put => 3
  | .Patch => 5

/-- enum `MessageType` of the source. -/
inductive MessageType
  | Request
  | FinalResponse
  | Response
  | Authentication
deriving DecidableEq

/-- The discriminant of `MessageType`, as read by the `as i32` cast. -/
def MessageType.code : MessageType → Int
  | .Request => 1
  | .FinalResponse => 2
  | .Response => 3
  | .Authentication => 1000

/-- A value handed to the external structured-value encoder
(`erased_serde::Serialize` boxes in the source); the encoder itself is an
external collaborator and stays opaque. -/
inductive VPackValue
  | uint (n : Nat)
  | int (n : Int)
  | str (s : String)
  | strMap (m : List (String × String))
deriving DecidableEq

/-- struct `RequestMessage` of the source (`HashMap<String, String>` modelled
as an association list). -/
structure RequestMessage where
  version : Nat
  message_type : MessageType
  database : String
  request_type : RequestType
  request_path : String
  parameters : List (String × String)
  meta : List (String × String)

/-- The 7-element array that `RequestMessage::to_bytes` pushes, in order, into
the vector handed to `velocypack::to_bytes`. -/
def RequestMessage.to_value_array (m : RequestMessage) : List VPackValue :=
  [.uint m.version, .int m.message_type.code, .str m.database,
   .int m.request_type.code, .str m.request_path,
   .strMap m.parameters, .strMap m.meta]

/-- `impl Default for RequestMessage` of the source. -/
def RequestMessage.default : RequestMessage :=
  { version := 1
    message_type := .Request
    database := "_system"
    request_type := .Get
    request_path := "/_admin/echo"
    parameters := []
    meta := [] }

/- ---------------------------------------------------------------------
   MessageSplitter / MessageReassembler.  These two components are absent
   from the source (the spec notes that multi-chunk splitting and
   reassembly are stubbed out), so they are modelled from the spec,
   sections 4.3 and 4.4.
   --------------------------------------------------------------------- -/

/-- Modelled from the spec: the error taxonomy of section 7 (`FramingError`,
`ProtocolError`, `InvalidInput`); no error type exists in the source. -/
inductive VstError
  | framing
  | protocol
  | invalidInput
deriving DecidableEq

/-- Modelled from the spec: `total_chunks = ceil(len(message_bytes) /
max_chunk_payload)`, minimum 1 even for zero-length messages (section 4.3). -/
def numChunks (P : List Nat) (M : Nat) : Nat :=
  max 1 ((P.length + M - 1) / M)

/-- Modelled from the spec: the payload slice of the 0-based chunk `i`, the
`i`-th run of up to `M` bytes of the message (section 4.3). -/
def sliceAt (P : List Nat) (M i : Nat) : List Nat :=
  (P.drop (i * M)).take M

/-- Modelled from the spec: chunk `i` (0-based) produced by
`MessageSplitter.split` — descriptor `encode(i, total_chunks)` (the source's
`encode_chunk_x`), the same `message_id` and `message_length = len(P)` in
every chunk, and the `i`-th payload slice (section 4.3). -/
def chunkAt (id : Nat) (P : List Nat) (M : Nat) (i : Nat) : Chunk :=
  { length := (24 + (sliceAt P M i).length) % 2^32
    chunk_x := Chunk.encode_chunk_x i (numChunks P M)
    message_id := id % 2^64
    message_length := P.length % 2^64
    data := sliceAt P M i }

/-- Modelled from the spec: the ordered chunk sequence produced by
`MessageSplitter.split` (section 4.3). -/
def splitList (id : Nat) (P : List Nat) (M : Nat) : List Chunk :=
  (List.range (numChunks P M)).map (chunkAt id P M)

/-- Modelled from the spec: `split` fails with `InvalidInput` on
`message_id == 0` or `max_chunk_payload == 0` (section 4.3). -/
def splitChunks (id : Nat) (P : List Nat) (M : Nat) : Except VstError (List Chunk) :=
  if id % 2^64 = 0 then .error .invalidInput
  else if M = 0 then .error .invalidInput
  else .ok (splitList id P M)

/-- Modelled from the spec: one ReassemblyEntry (section 3) — the expected
total chunk count once the first chunk has arrived, and the received 1-based
chunk indices with their payloads. -/
structure Entry where
  total : Option Nat
  slots : List (Nat × List Nat)
deriving DecidableEq

/-- Lookup of a received index in an entry's slot list. -/
def lookupSlot : List (Nat × List Nat) → Nat → Option (List Nat)
  | [], _ => none
  | (k, d) :: rest, i => if k = i then some d else lookupSlot rest i

/-- Modelled from the spec: the reassembler's process-wide keyed state, one
entry per in-flight `message_id` (section 4.4). -/
def RState : Type := Nat → Option Entry

/-- The empty reassembler state. -/
def emptyState : RState := fun _ => none

/-- Update the keyed state at one `message_id`. -/
def setEntry (st : RState) (k : Nat) (v : Option Entry) : RState :=
  fun j => if j = k then v else st j

/-- Modelled from the spec, step 1 of `accept` (section 4.4): a first chunk
records the decoded number as the message's total chunk count, creating the
entry if absent; a conflicting duplicate first chunk is a ProtocolError, as is
a learned total inconsistent with an already-stored index exceeding it. -/
def recordTotal (e : Entry) (isF : Bool) (num : Nat) : Except VstError Entry :=
  if isF then
    match e.total with
    | some t => if t = num then .ok e else .error .protocol
    | none =>
      if e.slots.any (fun p => decide (num < p.1)) then .error .protocol
      else .ok { e with total := some num }
  else .ok e

/-- Modelled from the spec, step 3 of `accept` (section 4.4): store the data
under the chunk's 1-based index, rejecting a duplicate index whose content
length differs. -/
def storeSlot (e : Entry) (idx : Nat) (d : List Nat) : Except VstError Entry :=
  match lookupSlot e.slots idx with
  | some d0 =>
    if d0.length = d.length then .ok { e with slots := (idx, d) :: e.slots }
    else .error .protocol
  | none => .ok { e with slots := (idx, d) :: e.slots }

/-- All indices `1..=t` received? (completion test of step 4, section 4.4). -/
def entryComplete (e : Entry) (t : Nat) : Bool :=
  (List.range t).all (fun k => (lookupSlot e.slots (k + 1)).isSome)

/-- Payload concatenation in index order `1..=t` (step 4, section 4.4). -/
def entryPayload (e : Entry) (t : Nat) : List Nat :=
  ((List.range t).map (fun k => (lookupSlot e.slots (k + 1)).getD [])).flatten

/-- Modelled from the spec, step 4 of `accept` (section 4.4): once the total
is known and all indices `1..=total` are present, concatenate in index order,
check the length against `message_length`, drop the entry and deliver the
message; otherwise store the updated entry and wait. -/
def finishEntry (st : RState) (id mlen : Nat) (e : Entry) :
    Except VstError (RState × Option (Nat × List Nat)) :=
  match e.total with
  | some t =>
    if entryComplete e t then
      if (entryPayload e t).length = mlen then
        .ok (setEntry st id none, some (id, entryPayload e t))
      else .error .protocol
    else .ok (setEntry st id (some e), none)
  | none => .ok (setEntry st id (some e), none)

/-- Modelled from the spec: `MessageReassembler.accept` (section 4.4),
parameterised by the mapping `ci` from a continuation chunk's decoded
descriptor number to its 1-based reassembly index — the spec's literal step 2
is `ci = id`, i.e. the decoded number itself.  Decoding the descriptor is
`is_first = chunk_x & 1`, `number = chunk_x >> 1` (section 4.1, the pure part
of the source's `is_first_chunk` / `get_chunk`). -/
def acceptWith (ci : Nat → Nat) (st : RState) (c : Chunk) :
    Except VstError (RState × Option (Nat × List Nat)) :=
  if c.message_id = 0 then .error .protocol
  else
    let isF : Bool := c.chunk_x % 2 == 1
    let num : Nat := c.chunk_x / 2
    let e0 : Entry := (st c.message_id).getD { total := none, slots := [] }
    match recordTotal e0 isF num with
    | .error err => .error err
    | .ok e1 =>
      let idx : Nat := if isF then 1 else ci num
      match storeSlot e1 idx c.data with
      | .error err => .error err
      | .ok e2 => finishEntry st c.message_id c.message_length e2

/-- Feed a chunk sequence into the reassembler, collecting every delivered
`(message_id, payload)` in delivery order. -/
def runWith (ci : Nat → Nat) : RState → List Chunk →
    Except VstError (RState × List (Nat × List Nat))
  | st, [] => .ok (st, [])
  | st, c :: rest =>
    match acceptWith ci st c with
    | .error err => .error err
    | .ok (st1, out) =>
      match runWith ci st1 rest with
      | .error err => .error err
      | .ok (st2, msgs) => .ok (st2, out.toList ++ msgs)

/-- The spec's literal reassembler (step 2 of section 4.4: a continuation
chunk's 1-based index is exactly the decoded number): delivered messages. -/
def reassembleLiteral (cs : List Chunk) : Except VstError (List (Nat × List Nat)) :=
  Except.map Prod.snd (runWith (fun k => k) emptyState cs)

/-- The reassembler with the continuation index taken as decoded number + 1
(the only reading under which the split of section 4.3 — whose continuation
chunk at 0-based position `i` encodes number `i` — reassembles): delivered
messages. -/
def reassembleShifted (cs : List Chunk) : Except VstError (List (Nat × List Nat)) :=
  Except.map Prod.snd (runWith (fun k => k + 1) emptyState cs)

/-- The invariant characterising the shifted reassembler's state after it has
consumed a duplicate-free, still incomplete sublist `l` of one message's
split chunks: no entry for any other id; the entry's recorded total is known
exactly when the first chunk has been seen; slot `i+1` holds exactly the
`i`-th slice for the chunks seen; and nothing else is in the slot list. -/
def ReasmInv (id : Nat) (P : List Nat) (M : Nat) (l : List Chunk) (st : RState) : Prop :=
  (∀ j, j ≠ id % 2^64 → st j = none) ∧
  ((st (id % 2^64)).getD { total := none, slots := [] }).total =
    (if chunkAt id P M 0 ∈ l then some (numChunks P M) else none) ∧
  (∀ i, i < numChunks P M →
    lookupSlot ((st (id % 2^64)).getD { total := none, slots := [] }).slots (i + 1) =
      (if chunkAt id P M i ∈ l then some (sliceAt P M i) else none)) ∧
  (∀ k d, (k, d) ∈ ((st (id % 2^64)).getD { total := none, slots := [] }).slots →
    ∃ i, i < numChunks P M ∧ k = i + 1 ∧ d = sliceAt P M i ∧ chunkAt id P M i ∈ l)

/- ---------------------------------------------------------------------
   Helper lemmas about the byte-level codec.
   --------------------------------------------------------------------- -/

theorem leBytes_length (w v : Nat) : (leBytes w v).length = w := by
  induction w generalizing v with
  | zero => rfl
  | succ w ih => simp [leBytes, ih]

theorem leValue_leBytes (w v : Nat) : leValue (leBytes w v) = v % 256 ^ w := by
  induction w generalizing v with
  | zero => simp [leBytes, leValue, Nat.mod_one]
  | succ w ih =>
    calc leValue (leBytes (w + 1) v)
        = v % 256 + 256 * (v / 256 % 256 ^ w) := by rw [leBytes, leValue, ih]
      _ = v % (256 * 256 ^ w) := Nat.mod_mul.symm
      _ = v % 256 ^ (w + 1) := by rw [pow_succ, mul_comm]

theorem drop_leBytes_append (w v : Nat) (r : List Nat) :
    (leBytes w v ++ r).drop w = r := by
  have h := List.drop_left (leBytes w v) r
  rwa [leBytes_length] at h

theorem take_leBytes_append (w v : Nat) (r : List Nat) :
    (leBytes w v ++ r).take w = leBytes w v := by
  have h := List.take_left (leBytes w v) r
  rwa [leBytes_length] at h

theorem to_bytes_length (c : Chunk) : c.to_bytes.length = 24 + c.data.length := by
  simp [Chunk.to_bytes, leBytes_length]
  omega

theorem to_bytes_drop_4 (c : Chunk) :
    c.to_bytes.drop 4 = leBytes 4 c.chunk_x ++ leBytes 8 c.message_id ++
      leBytes 8 c.message_length ++ c.data := by
  rw [Chunk.to_bytes, List.append_assoc, List.append_assoc, List.append_assoc,
    drop_leBytes_append, ← List.append_assoc, ← List.append_assoc]

theorem to_bytes_drop_8 (c : Chunk) :
    c.to_bytes.drop 8 = leBytes 8 c.message_id ++ leBytes 8 c.message_length ++ c.data := by
  have h : c.to_bytes.drop 8 = (c.to_bytes.drop 4).drop 4 := by
    rw [List.drop_drop]
  rw [h, to_bytes_drop_4, List.append_assoc, List.append_assoc,
    drop_leBytes_append, ← List.append_assoc]

theorem to_bytes_drop_16 (c : Chunk) :
    c.to_bytes.drop 16 = leBytes 8 c.message_length ++ c.data := by
  have h : c.to_bytes.drop 16 = (c.to_bytes.drop 8).drop 8 := by
    rw [List.drop_drop]
  rw [h, to_bytes_drop_8, List.append_assoc, drop_leBytes_append]

theorem to_bytes_drop_24 (c : Chunk) : c.to_bytes.drop 24 = c.data := by
  have h : c.to_bytes.drop 24 = (c.to_bytes.drop 16).drop 8 := by
    rw [List.drop_drop]
  rw [h, to_bytes_drop_16, drop_leBytes_append]

/- ---------------------------------------------------------------------
   Claim theorems for the chunk codec.
   --------------------------------------------------------------------- -/

/-- Claim C2: decoding the bytes produced by encoding a chunk succeeds (the
buffer is at least 24 bytes long) and recovers exactly the original payload,
for every choice of header fields and every payload, the empty one included. -/
theorem C2_codec_data_round_trip (c : Chunk) :
    (Chunk.from_bytes c.to_bytes).map Chunk.data = some c.data := by
  have hlen : ¬ c.to_bytes.length < 24 := by
    rw [to_bytes_length]; omega
  rw [Chunk.from_bytes, if_neg hlen]
  simp [to_bytes_drop_24]

/-- Claim C3 (code evaluation): for every buffer shorter than 24 bytes,
`Chunk::from_bytes` panics on the first out-of-range slice (`none` in this
model); it does not return a `FramingError` value, and no error type exists in
the source at all. -/
theorem C3_short_buffer_panics (b : List Nat) (h : b.length < 24) :
    Chunk.from_bytes b = none := by
  rw [Chunk.from_bytes, if_pos h]

/-- Witness for C3 at the empty buffer. -/
theorem C3_short_buffer_panics_witness : Chunk.from_bytes [] = none :=
  C3_short_buffer_panics [] (by decide)

/-- Claim C5: the serialized byte sequence carries `length` little-endian at
offsets 0..4, `chunk_x` at 4..8, `message_id` at 8..16, `message_length` at
16..24 (each reduced to its machine width), immediately followed by the
payload; and decoding reads exactly those little-endian fields from the same
offsets of any buffer of at least 24 bytes. -/
theorem C5_wire_layout (c : Chunk) (b : List Nat) (hb : ¬ b.length < 24) :
    (leValue (c.to_bytes.take 4) = c.length % 2^32
      ∧ leValue ((c.to_bytes.drop 4).take 4) = c.chunk_x % 2^32
      ∧ leValue ((c.to_bytes.drop 8).take 8) = c.message_id % 2^64
      ∧ leValue ((c.to_bytes.drop 16).take 8) = c.message_length % 2^64
      ∧ c.to_bytes.drop 24 = c.data)
    ∧ Chunk.from_bytes b = some
      { length := leValue (b.take 4)
        chunk_x := leValue ((b.drop 4).take 4)
        message_id := leValue ((b.drop 8).take 8)
        message_length := leValue ((b.drop 16).take 8)
        data := b.drop 24 } := by
  have h32 : (256:Nat) ^ 4 = 2 ^ 32 := by norm_num
  have h64 : (256:Nat) ^ 8 = 2 ^ 64 := by norm_num
  refine ⟨⟨?_, ?_, ?_, ?_, to_bytes_drop_24 c⟩, ?_⟩
  · rw [Chunk.to_bytes, List.append_assoc, List.append_assoc, List.append_assoc,
      take_leBytes_append, leValue_leBytes, h32]
  · rw [to_bytes_drop_4, List.append_assoc, List.append_assoc,
      take_leBytes_append, leValue_leBytes, h32]
  · rw [to_bytes_drop_8, List.append_assoc, take_leBytes_append,
      leValue_leBytes, h64]
  · rw [to_bytes_drop_16, take_leBytes_append, leValue_leBytes, h64]
  · rw [Chunk.from_bytes, if_neg hb]

/-- Witness for C5 on a concrete chunk and a concrete 25-byte buffer. -/
theorem C5_wire_layout_witness :
    Chunk.from_bytes (List.replicate 24 0 ++ [7]) = some
      { length := leValue ((List.replicate 24 0 ++ [7]).take 4)
        chunk_x := leValue (((List.replicate 24 0 ++ [7]).drop 4).take 4)
        message_id := leValue (((List.replicate 24 0 ++ [7]).drop 8).take 8)
        message_length := leValue (((List.replicate 24 0 ++ [7]).drop 16).take 8)
        data := (List.replicate 24 0 ++ [7]).drop 24 } :=
  (C5_wire_layout (Chunk.from_data []) (List.replicate 24 0 ++ [7]) (by decide)).2

/-- Claim C6: a single-chunk message always gets descriptor `3`
(`encode_chunk_x(_, 1) = 3`, and `from_data` builds exactly that chunk), and
that descriptor decodes to is-first with chunk number 1 whatever the payload. -/
theorem C6_single_chunk_descriptor (i : Nat) (d : List Nat) :
    Chunk.encode_chunk_x i 1 = 3
      ∧ (Chunk.from_data d).chunk_x = 3
      ∧ (Chunk.from_data d).is_first_chunk = true
      ∧ (Chunk.from_data d).get_chunk_number = some 1 := by
  refine ⟨rfl, rfl, ?_, ?_⟩
  · simp [Chunk.from_data, Chunk.is_first_chunk, Chunk.encode_chunk_x]
  · simp [Chunk.from_data, Chunk.get_chunk_number, Chunk.get_chunk,
      Chunk.is_first_chunk, Chunk.encode_chunk_x]

/-- Claim C1 (code evaluation): `encode_chunk_x(1, 2) = 2` encodes chunk index
1 of a 2-chunk message; on the resulting continuation chunk `is_first_chunk`
is `false`, so `get_chunk_number` falls into `get_chunk`, whose
`assert!(self.is_first_chunk())` fails: decoding a continuation descriptor
panics (`none`) instead of returning the chunk's index. -/
theorem C1_continuation_decode_panics :
    Chunk.encode_chunk_x 1 2 = 2
      ∧ (Chunk.mk 26 (Chunk.encode_chunk_x 1 2) 11 2 [0, 0]).is_first_chunk = false
      ∧ (Chunk.mk 26 (Chunk.encode_chunk_x 1 2) 11 2 [0, 0]).get_chunk_number = none := by
  refine ⟨by decide, by decide, by decide⟩

/-- Claim C7 (code evaluation): `Chunk::from_bytes` accepts 24 zero bytes
without any validation and produces a chunk with `length = 0` and empty
payload, violating the invariant `length = 24 + len(data)` on the decode
path. -/
theorem C7_decode_violates_length_invariant :
    (Chunk.from_bytes (List.replicate 24 0)).map
        (fun c => c.length == 24 + c.data.length) = some false := by
  decide

/-- Claim C8 (code evaluation): on a 25-byte buffer whose declared `length`
field is 99, `Chunk::from_bytes` succeeds and returns a chunk, performing no
check of the declared length against the buffer length, instead of failing
with a `FramingError`. -/
theorem C8_length_mismatch_not_rejected :
    Chunk.from_bytes ([99, 0, 0, 0] ++ List.replicate 21 0) =
      some (Chunk.mk 99 0 0 0 [0]) := by
  decide

/-- Claim C9: `RequestMessage::to_bytes` hands the external value encoder the
fixed 7-element array `[version, message_type as integer, database,
request_type as integer, request_path, parameters, meta]`, and the
`Default` instance encodes to `[1, 1, "_system", 1, "/_admin/echo", {}, {}]`. -/
theorem C9_request_envelope_array (m : RequestMessage) :
    m.to_value_array =
      [.uint m.version, .int m.message_type.code, .str m.database,
       .int m.request_type.code, .str m.request_path,
       .strMap m.parameters, .strMap m.meta]
    ∧ RequestMessage.default.to_value_array =
      [.uint 1, .int 1, .str "_system", .int 1, .str "/_admin/echo",
       .strMap [], .strMap []] := by
  exact ⟨rfl, rfl⟩

theorem from_data_length_val (d : List Nat) :
    (Chunk.from_data d).length = (24 + d.length) % 2^32 := rfl

theorem from_data_data_val (d : List Nat) : (Chunk.from_data d).data = d := rfl

/-- Claim C10 (counterexample): at a payload of `2^32 - 24` bytes the `as u32`
cast in `from_data` wraps and the stored `length` is `0`, not `24 + len`. -/
theorem C10_length_wraps_counterexample :
    (Chunk.from_data (List.replicate (2^32 - 24) 0)).length ≠
      24 + (Chunk.from_data (List.replicate (2^32 - 24) 0)).data.length := by
  rw [from_data_length_val, from_data_data_val, List.length_replicate]
  norm_num

/-- Claim C10 as amended: for every payload shorter than `2^32 - 24` bytes,
`from_data` yields the constant non-zero `message_id = 11`, descriptor `3`
(single first chunk of an implicit count 1), `message_length = len(d)`,
`length = 24 + len(d)` and `data = d`. -/
theorem C10_from_data_fields (d : List Nat) (h : d.length < 2^32 - 24) :
    (Chunk.from_data d).message_id = 11
      ∧ (Chunk.from_data d).message_id ≠ 0
      ∧ (Chunk.from_data d).chunk_x = 3
      ∧ (Chunk.from_data d).length = 24 + d.length
      ∧ (Chunk.from_data d).message_length = d.length
      ∧ (Chunk.from_data d).data = d
      ∧ (Chunk.from_data d).is_first_chunk = true
      ∧ (Chunk.from_data d).get_chunk_number = some 1 := by
  refine ⟨rfl, by norm_num [Chunk.from_data], rfl, ?_, ?_, rfl, ?_, ?_⟩
  · show (24 + d.length) % 2^32 = 24 + d.length
    apply Nat.mod_eq_of_lt
    omega
  · show d.length % 2^64 = d.length
    apply Nat.mod_eq_of_lt
    have : (2:Nat)^32 - 24 < 2^64 := by norm_num
    omega
  · simp [Chunk.from_data, Chunk.is_first_chunk, Chunk.encode_chunk_x]
  · simp [Chunk.from_data, Chunk.get_chunk_number, Chunk.get_chunk,
      Chunk.is_first_chunk, Chunk.encode_chunk_x]

/-- Witness for C10 at the one-byte payload `[7]`. -/
theorem C10_from_data_fields_witness :
    (Chunk.from_data [7]).message_id = 11
      ∧ (Chunk.from_data [7]).message_id ≠ 0
      ∧ (Chunk.from_data [7]).chunk_x = 3
      ∧ (Chunk.from_data [7]).length = 24 + [7].length
      ∧ (Chunk.from_data [7]).message_length = [7].length
      ∧ (Chunk.from_data [7]).data = [7]
      ∧ (Chunk.from_data [7]).is_first_chunk = true
      ∧ (Chunk.from_data [7]).get_chunk_number = some 1 :=
  C10_from_data_fields [7] (by norm_num)

/- ---------------------------------------------------------------------
   Lemmas about the spec-modelled splitter and reassembler.
   --------------------------------------------------------------------- -/

theorem numChunks_pos (P : List Nat) (M : Nat) : 1 ≤ numChunks P M :=
  le_max_left 1 _

theorem encode_chunk_x_first (N : Nat) (h32 : 2 * N < 2^32) :
    Chunk.encode_chunk_x 0 N = 2 * N + 1 := by
  unfold Chunk.encode_chunk_x
  by_cases hN : N = 1
  · subst hN; simp
  · rw [if_neg hN, if_pos rfl, Nat.mul_comm N 2, Nat.mod_eq_of_lt h32]

theorem encode_chunk_x_cont (i N : Nat) (h1 : 1 ≤ i) (hiN : i < N)
    (h32 : 2 * N < 2^32) : Chunk.encode_chunk_x i N = 2 * i := by
  unfold Chunk.encode_chunk_x
  rw [if_neg (by omega), if_neg (by omega), Nat.mul_comm i 2,
    Nat.mod_eq_of_lt (by omega)]

theorem chunkAt_inj (id : Nat) (P : List Nat) (M : Nat)
    (h32 : 2 * numChunks P M < 2^32) {i j : Nat}
    (hi : i < numChunks P M) (hj : j < numChunks P M)
    (h : chunkAt id P M i = chunkAt id P M j) : i = j := by
  have hx := congrArg Chunk.chunk_x h
  simp only [chunkAt] at hx
  rcases Nat.eq_zero_or_pos i with rfl | hi1 <;>
    rcases Nat.eq_zero_or_pos j with rfl | hj1
  · rfl
  · rw [encode_chunk_x_first _ h32, encode_chunk_x_cont j _ hj1 hj h32] at hx
    omega
  · rw [encode_chunk_x_cont i _ hi1 hi h32, encode_chunk_x_first _ h32] at hx
    omega
  · rw [encode_chunk_x_cont i _ hi1 hi h32,
      encode_chunk_x_cont j _ hj1 hj h32] at hx
    omega

theorem splitList_nodup (id : Nat) (P : List Nat) (M : Nat)
    (h32 : 2 * numChunks P M < 2^32) : (splitList id P M).Nodup := by
  unfold splitList
  refine List.Nodup.map_on ?_ (List.nodup_range _)
  intro x hx y hy hxy
  exact chunkAt_inj id P M h32 (List.mem_range.mp hx) (List.mem_range.mp hy) hxy

theorem mem_splitList (id : Nat) (P : List Nat) (M i : Nat)
    (hi : i < numChunks P M) : chunkAt id P M i ∈ splitList id P M :=
  List.mem_map_of_mem _ (List.mem_range.mpr hi)

theorem splitList_length (id : Nat) (P : List Nat) (M : Nat) :
    (splitList id P M).length = numChunks P M := by
  simp [splitList]

theorem flatten_slices (P : List Nat) (M : Nat) (k : Nat) :
    ((List.range k).map (fun i => sliceAt P M i)).flatten = P.take (k * M) := by
  induction k with
  | zero => simp
  | succ k ih =>
    rw [List.range_succ, List.map_append, List.flatten_append, ih,
      Nat.succ_mul, List.take_add]
    simp [sliceAt]

theorem length_le_numChunks_mul (P : List Nat) (M : Nat) (hM : 0 < M) :
    P.length ≤ numChunks P M * M := by
  rcases Nat.eq_zero_or_pos P.length with h0 | hpos
  · simp [h0]
  · have hq : 1 ≤ (P.length + M - 1) / M := by
      apply (Nat.one_le_div_iff hM).mpr
      omega
    have hmax : numChunks P M = (P.length + M - 1) / M :=
      Nat.max_eq_right hq
    have key : P.length ≤ M * ((P.length + M - 1) / M) := by
      have hdm := Nat.div_add_mod (P.length + M - 1) M
      have hmod := Nat.mod_lt (P.length + M - 1) hM
      omega
    rw [hmax, Nat.mul_comm]
    exact key

theorem flatten_slices_all (P : List Nat) (M : Nat) (hM : 0 < M) :
    ((List.range (numChunks P M)).map (fun i => sliceAt P M i)).flatten = P := by
  rw [flatten_slices, List.take_of_length_le (length_le_numChunks_mul P M hM)]

theorem ReasmInv_empty (id : Nat) (P : List Nat) (M : Nat) :
    ReasmInv id P M [] emptyState := by
  refine ⟨fun j _ => rfl, ?_, ?_, ?_⟩
  · simp [emptyState, lookupSlot]
  · intro i _
    simp [emptyState, lookupSlot]
  · intro k d hkd
    simp [emptyState] at hkd

theorem recordTotal_not_first (e : Entry) (num : Nat) :
    recordTotal e false num = .ok e := rfl

theorem recordTotal_first_fresh (s0 : List (Nat × List Nat)) (num : Nat)
    (hok : ∀ p ∈ s0, ¬ num < p.1) :
    recordTotal ⟨none, s0⟩ true num = .ok ⟨some num, s0⟩ := by
  unfold recordTotal
  rw [if_pos rfl]
  have hany : (s0.any fun p => decide (num < p.1)) = false := by
    rw [List.any_eq_false]
    intro p hp
    simp [hok p hp]
  simp only [hany]
  rfl

theorem storeSlot_fresh (t0 : Option Nat) (s0 : List (Nat × List Nat))
    (idx : Nat) (d : List Nat) (hnone : lookupSlot s0 idx = none) :
    storeSlot ⟨t0, s0⟩ idx d = .ok ⟨t0, (idx, d) :: s0⟩ := by
  unfold storeSlot
  simp only [hnone]

theorem lookupSlot_cons_self (k : Nat) (d : List Nat) (s : List (Nat × List Nat)) :
    lookupSlot ((k, d) :: s) k = some d := by
  simp [lookupSlot]

theorem lookupSlot_cons_ne (k k2 : Nat) (d : List Nat) (s : List (Nat × List Nat))
    (h : k ≠ k2) : lookupSlot ((k, d) :: s) k2 = lookupSlot s k2 := by
  simp [lookupSlot, h]

theorem chunkAt_chunk_x_first (id : Nat) (P : List Nat) (M : Nat)
    (h32 : 2 * numChunks P M < 2^32) :
    (chunkAt id P M 0).chunk_x = 2 * numChunks P M + 1 := by
  simp [chunkAt, encode_chunk_x_first _ h32]

theorem chunkAt_chunk_x_cont (id : Nat) (P : List Nat) (M i : Nat)
    (h1 : 1 ≤ i) (hiN : i < numChunks P M) (h32 : 2 * numChunks P M < 2^32) :
    (chunkAt id P M i).chunk_x = 2 * i := by
  simp [chunkAt, encode_chunk_x_cont i _ h1 hiN h32]

theorem accept_unfold (id : Nat) (P : List Nat) (M : Nat)
    (h32 : 2 * numChunks P M < 2^32) (hid : id % 2^64 ≠ 0)
    {l : List Chunk} {st : RState} {i0 : Nat} (hi0 : i0 < numChunks P M)
    (hnotin : chunkAt id P M i0 ∉ l) (hinv : ReasmInv id P M l st) :
    acceptWith (fun k => k + 1) st (chunkAt id P M i0) =
      finishEntry st (id % 2^64) (P.length % 2^64)
        { total := if i0 = 0 then some (numChunks P M)
                   else ((st (id % 2^64)).getD { total := none, slots := [] }).total
          slots := (i0 + 1, sliceAt P M i0) ::
                   ((st (id % 2^64)).getD { total := none, slots := [] }).slots } := by
  obtain ⟨hother, htot, hlook, hmem⟩ := hinv
  unfold acceptWith
  simp only [show (chunkAt id P M i0).message_id = id % 2^64 from rfl,
    show (chunkAt id P M i0).data = sliceAt P M i0 from rfl,
    show (chunkAt id P M i0).message_length = P.length % 2^64 from rfl]
  rw [if_neg hid]
  generalize hE : ((st (id % 2^64)).getD { total := none, slots := [] } : Entry) = E
    at htot hlook hmem ⊢
  obtain ⟨t0, s0⟩ := E
  simp only at htot hlook hmem
  have hfresh : lookupSlot s0 (i0 + 1) = none := by
    have h := hlook i0 hi0
    rwa [if_neg hnotin] at h
  rcases Nat.eq_zero_or_pos i0 with rfl | hpos
  · -- first chunk of the message
    have hx := chunkAt_chunk_x_first id P M h32
    have hb : ((chunkAt id P M 0).chunk_x % 2 == 1) = true := by
      rw [hx]
      have h2 : (2 * numChunks P M + 1) % 2 = 1 := by omega
      rw [h2]
      rfl
    have hhalf : (chunkAt id P M 0).chunk_x / 2 = numChunks P M := by
      rw [hx]; omega
    have htnone : t0 = none := by
      rwa [if_neg hnotin] at htot
    subst htnone
    have hpk : ∀ p ∈ s0, ¬ numChunks P M < p.1 := by
      intro p hp
      obtain ⟨i, hiN, hk, -, -⟩ := hmem p.1 p.2 hp
      omega
    simp only [hb, hhalf, if_true]
    simp only [recordTotal_first_fresh _ _ hpk, storeSlot_fresh _ _ _ _ hfresh]
  · -- continuation chunk
    have hx := chunkAt_chunk_x_cont id P M i0 hpos hi0 h32
    have hb : ((chunkAt id P M i0).chunk_x % 2 == 1) = false := by
      rw [hx]
      have h2 : 2 * i0 % 2 = 0 := by omega
      rw [h2]
      rfl
    have hhalf : (chunkAt id P M i0).chunk_x / 2 = i0 := by
      rw [hx]; omega
    simp only [hb, hhalf, Bool.false_eq_true, if_false]
    simp only [recordTotal_not_first, storeSlot_fresh _ _ _ _ hfresh]
    rw [if_neg (by omega : ¬ i0 = 0)]

theorem accept_partial (id : Nat) (P : List Nat) (M : Nat)
    (h32 : 2 * numChunks P M < 2^32) (hid : id % 2^64 ≠ 0)
    {l : List Chunk} {st : RState} {i0 j : Nat} (hi0 : i0 < numChunks P M)
    (hnotin : chunkAt id P M i0 ∉ l) (hinv : ReasmInv id P M l st)
    (hj : j < numChunks P M) (hjne : j ≠ i0)
    (hjnot : chunkAt id P M j ∉ l) :
    ∃ st1, acceptWith (fun k => k + 1) st (chunkAt id P M i0) = .ok (st1, none) ∧
      ReasmInv id P M (l ++ [chunkAt id P M i0]) st1 := by
  have hN0 : 0 < numChunks P M := numChunks_pos P M
  rw [accept_unfold id P M h32 hid hi0 hnotin hinv]
  obtain ⟨hother, htot, hlook, hmem⟩ := hinv
  generalize hE : ((st (id % 2^64)).getD { total := none, slots := [] } : Entry) = E
    at htot hlook hmem ⊢
  obtain ⟨t0, s0⟩ := E
  simp only at htot hlook hmem
  subst htot
  have hmem01 : chunkAt id P M 0 ∈ l ++ [chunkAt id P M i0] ↔
      (chunkAt id P M 0 ∈ l ∨ i0 = 0) := by
    simp only [List.mem_append, List.mem_singleton]
    constructor
    · rintro (h | h)
      · exact Or.inl h
      · exact Or.inr (chunkAt_inj id P M h32 hN0 hi0 h).symm
    · rintro (h | h)
      · exact Or.inl h
      · subst h
        exact Or.inr rfl
  have htot2 : (if i0 = 0 then some (numChunks P M)
      else if chunkAt id P M 0 ∈ l then some (numChunks P M) else none) =
      (if chunkAt id P M 0 ∈ l ++ [chunkAt id P M i0]
        then some (numChunks P M) else none) := by
    by_cases h0 : i0 = 0
    · rw [if_pos h0, if_pos (hmem01.mpr (Or.inr h0))]
    · rw [if_neg h0]
      by_cases hm : chunkAt id P M 0 ∈ l
      · rw [if_pos hm, if_pos (hmem01.mpr (Or.inl hm))]
      · rw [if_neg hm, if_neg (fun hcon => by
          rcases hmem01.mp hcon with h | h
          · exact hm h
          · exact h0 h)]
  rw [htot2]
  have hmiss : lookupSlot ((i0 + 1, sliceAt P M i0) :: s0) (j + 1) = none := by
    rw [lookupSlot_cons_ne _ _ _ _ (by omega)]
    have h := hlook j hj
    rwa [if_neg hjnot] at h
  -- the invariant for the extended list, shared by both cases below
  have hinvNew : ∀ t2 : Option Nat,
      t2 = (if chunkAt id P M 0 ∈ l ++ [chunkAt id P M i0]
        then some (numChunks P M) else none) →
      ReasmInv id P M (l ++ [chunkAt id P M i0])
        (setEntry st (id % 2^64) (some ⟨t2, (i0 + 1, sliceAt P M i0) :: s0⟩)) := by
    intro t2 ht2
    refine ⟨?_, ?_, ?_, ?_⟩
    · intro jj hjj
      simp only [setEntry, if_neg hjj]
      exact hother jj hjj
    · simp only [setEntry, eq_self_iff_true, if_true, Option.getD_some]
      exact ht2
    · intro i hiN
      simp only [setEntry, eq_self_iff_true, if_true, Option.getD_some]
      by_cases hii : i = i0
      · subst hii
        rw [lookupSlot_cons_self, if_pos (by simp)]
      · rw [lookupSlot_cons_ne _ _ _ _ (by omega), hlook i hiN]
        have hiff : chunkAt id P M i ∈ l ++ [chunkAt id P M i0] ↔
            chunkAt id P M i ∈ l := by
          simp only [List.mem_append, List.mem_singleton]
          constructor
          · rintro (h | h)
            · exact h
            · exact absurd (chunkAt_inj id P M h32 hiN hi0 h) hii
          · exact fun h => Or.inl h
        simp only [hiff]
    · intro k d hkd
      simp only [setEntry, eq_self_iff_true, if_true, Option.getD_some] at hkd
      rcases List.mem_cons.mp hkd with h | h
      · obtain ⟨hk, hd⟩ := Prod.ext_iff.mp h
        exact ⟨i0, hi0, hk, hd, List.mem_append_right _ (by simp)⟩
      · obtain ⟨i, hiN, hk, hd, hml⟩ := hmem k d h
        exact ⟨i, hiN, hk, hd, List.mem_append_left _ hml⟩
  by_cases hc : chunkAt id P M 0 ∈ l ++ [chunkAt id P M i0]
  · rw [if_pos hc]
    refine ⟨setEntry st (id % 2^64)
      (some ⟨some (numChunks P M), (i0 + 1, sliceAt P M i0) :: s0⟩), ?_, ?_⟩
    · have hcomp : entryComplete ⟨some (numChunks P M),
          (i0 + 1, sliceAt P M i0) :: s0⟩ (numChunks P M) = false := by
        unfold entryComplete
        rw [List.all_eq_false]
        refine ⟨j, List.mem_range.mpr hj, ?_⟩
        rw [hmiss]
        simp
      unfold finishEntry
      simp only [hcomp, Bool.false_eq_true, if_false]
    · exact hinvNew _ (by rw [if_pos hc])
  · rw [if_neg hc]
    refine ⟨setEntry st (id % 2^64)
      (some ⟨none, (i0 + 1, sliceAt P M i0) :: s0⟩), ?_, ?_⟩
    · unfold finishEntry
      rfl
    · exact hinvNew _ (by rw [if_neg hc])

theorem accept_final (id : Nat) (P : List Nat) (M : Nat) (hM : 0 < M)
    (h32 : 2 * numChunks P M < 2^32) (hid : id % 2^64 ≠ 0)
    (h64 : P.length < 2^64) {l : List Chunk} {st : RState} {i0 : Nat}
    (hi0 : i0 < numChunks P M) (hnotin : chunkAt id P M i0 ∉ l)
    (hinv : ReasmInv id P M l st)
    (hall : ∀ jj, jj < numChunks P M → jj ≠ i0 → chunkAt id P M jj ∈ l) :
    acceptWith (fun k => k + 1) st (chunkAt id P M i0) =
      .ok (setEntry st (id % 2^64) none, some (id % 2^64, P)) := by
  have hN0 : 0 < numChunks P M := numChunks_pos P M
  rw [accept_unfold id P M h32 hid hi0 hnotin hinv]
  obtain ⟨hother, htot, hlook, hmem⟩ := hinv
  generalize hE : ((st (id % 2^64)).getD { total := none, slots := [] } : Entry) = E
    at htot hlook hmem ⊢
  obtain ⟨t0, s0⟩ := E
  simp only at htot hlook hmem
  subst htot
  have htot2 : (if i0 = 0 then some (numChunks P M)
      else if chunkAt id P M 0 ∈ l then some (numChunks P M) else none) =
      some (numChunks P M) := by
    by_cases h0 : i0 = 0
    · rw [if_pos h0]
    · rw [if_neg h0, if_pos (hall 0 hN0 (fun h => h0 h.symm))]
  rw [htot2]
  have hlookup2 : ∀ k, k < numChunks P M →
      lookupSlot ((i0 + 1, sliceAt P M i0) :: s0) (k + 1) =
        some (sliceAt P M k) := by
    intro k hk
    by_cases hki : k = i0
    · subst hki
      exact lookupSlot_cons_self _ _ _
    · rw [lookupSlot_cons_ne _ _ _ _ (by omega), hlook k hk,
        if_pos (hall k hk hki)]
  have hcomp : entryComplete ⟨some (numChunks P M),
      (i0 + 1, sliceAt P M i0) :: s0⟩ (numChunks P M) = true := by
    unfold entryComplete
    rw [List.all_eq_true]
    intro x hx
    rw [hlookup2 x (List.mem_range.mp hx)]
    rfl
  have hpay : entryPayload ⟨some (numChunks P M),
      (i0 + 1, sliceAt P M i0) :: s0⟩ (numChunks P M) = P := by
    unfold entryPayload
    rw [List.map_congr_left (fun a ha => by
      rw [hlookup2 a (List.mem_range.mp ha)]
      rfl : ∀ a ∈ List.range (numChunks P M),
        (lookupSlot ((i0 + 1, sliceAt P M i0) :: s0) (a + 1)).getD [] =
          sliceAt P M a)]
    exact flatten_slices_all P M hM
  unfold finishEntry
  simp only [hcomp, if_true, hpay, Nat.mod_eq_of_lt h64, eq_self_iff_true]

theorem run_delivers (id : Nat) (P : List Nat) (M : Nat) (hM : 0 < M)
    (h32 : 2 * numChunks P M < 2^32) (hid : id % 2^64 ≠ 0)
    (h64 : P.length < 2^64) :
    ∀ r l st, (l ++ r).Perm (splitList id P M) → r ≠ [] →
      ReasmInv id P M l st →
      ∃ st1, runWith (fun k => k + 1) st r = .ok (st1, [(id % 2^64, P)]) := by
  intro r
  induction r with
  | nil =>
    intro l st _ hne _
    exact absurd rfl hne
  | cons c r2 ih =>
    intro l st hperm _ hinv
    have hcmem : c ∈ splitList id P M := hperm.mem_iff.mp (by simp)
    obtain ⟨i0, hi0r, hc⟩ := List.mem_map.mp hcmem
    have hi0 : i0 < numChunks P M := List.mem_range.mp hi0r
    subst hc
    have hnodup : (l ++ chunkAt id P M i0 :: r2).Nodup :=
      hperm.symm.nodup (splitList_nodup id P M h32)
    have hnotin : chunkAt id P M i0 ∉ l := by
      rcases List.nodup_append.mp hnodup with ⟨-, -, hdisj⟩
      intro hmem2
      exact hdisj hmem2 (List.mem_cons_self _ _)
    by_cases hr2 : r2 = []
    · subst hr2
      have hall : ∀ jj, jj < numChunks P M → jj ≠ i0 → chunkAt id P M jj ∈ l := by
        intro jj hjj hne2
        have hjm : chunkAt id P M jj ∈ l ++ [chunkAt id P M i0] :=
          hperm.mem_iff.mpr (mem_splitList id P M jj hjj)
        rcases List.mem_append.mp hjm with h | h
        · exact h
        · rw [List.mem_singleton] at h
          exact absurd (chunkAt_inj id P M h32 hjj hi0 h) hne2
      have hstep := accept_final id P M hM h32 hid h64 hi0 hnotin hinv hall
      refine ⟨setEntry st (id % 2^64) none, ?_⟩
      simp [runWith, hstep]
    · obtain ⟨c2, r3, rfl⟩ := List.exists_cons_of_ne_nil hr2
      have hc2mem : c2 ∈ splitList id P M := hperm.mem_iff.mp (by simp)
      obtain ⟨j, hjr, hcj⟩ := List.mem_map.mp hc2mem
      have hj : j < numChunks P M := List.mem_range.mp hjr
      subst hcj
      have hjne : j ≠ i0 := by
        intro h
        subst h
        rcases List.nodup_append.mp hnodup with ⟨-, hnd2, -⟩
        rcases List.nodup_cons.mp hnd2 with ⟨hnotin2, -⟩
        exact hnotin2 (by simp)
      have hjnotl : chunkAt id P M j ∉ l := by
        rcases List.nodup_append.mp hnodup with ⟨-, -, hdisj⟩
        intro hmem2
        exact hdisj hmem2 (by simp)
      obtain ⟨st1, hacc, hinv2⟩ :=
        accept_partial id P M h32 hid hi0 hnotin hinv hj hjne hjnotl
      have hperm2 : ((l ++ [chunkAt id P M i0]) ++
          (chunkAt id P M j :: r3)).Perm (splitList id P M) := by
        simpa [List.append_assoc] using hperm
      obtain ⟨st2, hrun⟩ := ih (l ++ [chunkAt id P M i0]) st1 hperm2 (by simp) hinv2
      refine ⟨st2, ?_⟩
      have hstep1 : runWith (fun k => k + 1) st
          (chunkAt id P M i0 :: chunkAt id P M j :: r3) =
          match acceptWith (fun k => k + 1) st (chunkAt id P M i0) with
          | .error err => .error err
          | .ok (st1, out) =>
            match runWith (fun k => k + 1) st1 (chunkAt id P M j :: r3) with
            | .error err => .error err
            | .ok (st2, msgs) => .ok (st2, out.toList ++ msgs) := rfl
      rw [hstep1]
      simp only [hacc, hrun, Option.toList, List.nil_append]

/-- Claim C4 as amended: with the reassembler placing a continuation chunk
whose descriptor decodes to `k` at 1-based position `k + 1` (instead of the
spec's literal position `k`, which collides with the first chunk), splitting
any payload `P` with any chunk size `M > 0` and any `message_id` that is
non-zero modulo `2^64`, and feeding the chunks to the reassembler in any
permutation, delivers exactly the message `P` once — provided the chunk count
fits a `u32` descriptor (`2 * numChunks P M < 2^32`) and the payload length
fits `u64`. -/
theorem C4_split_reassemble_round_trip (id : Nat) (P : List Nat) (M : Nat)
    (hM : 0 < M) (hid : id % 2^64 ≠ 0) (h64 : P.length < 2^64)
    (h32 : 2 * numChunks P M < 2^32) (l : List Chunk)
    (hperm : l.Perm (splitList id P M)) :
    reassembleShifted l = .ok [(id % 2^64, P)] := by
  have hne : l ≠ [] := by
    intro h
    subst h
    have hlen := hperm.length_eq
    rw [splitList_length] at hlen
    have hN := numChunks_pos P M
    simp at hlen
    omega
  obtain ⟨st1, hrun⟩ := run_delivers id P M hM h32 hid h64 l [] emptyState
    (by simpa using hperm) hne (ReasmInv_empty id P M)
  unfold reassembleShifted
  rw [hrun]
  rfl

/-- Witness for C4 (amended): the 2-chunk split of `[5, 7]` with chunk size 1,
fed in reversed order, reassembles to exactly `[5, 7]`. -/
theorem C4_split_reassemble_round_trip_witness :
    reassembleShifted ((splitList 1 [5, 7] 1).reverse) =
      .ok [(1 % 2^64, [5, 7])] :=
  C4_split_reassemble_round_trip 1 [5, 7] 1 (by decide) (by decide) (by decide)
    (by decide) _ (List.reverse_perm _)

/-- Claim C4 (counterexample to the literal spec): under the spec's literal
step 2 of section 4.4 — a continuation chunk's 1-based index is its decoded
descriptor number — the 2-chunk split of `[5, 7]` with chunk size 1, fed in
order, stores the second chunk at index 1 (colliding with the first chunk)
and never completes: no message is delivered, instead of `[5, 7]`. -/
theorem C4_literal_never_completes :
    reassembleLiteral (splitList 1 [5, 7] 1) = .ok [] ∧
      ([] : List (Nat × List Nat)) ≠ [(1 % 2^64, [5, 7])] := by
  refine ⟨by rfl, by simp⟩
